import Mathlib

set_option maxRecDepth 8000

/-!
Shallow embedding of the obsidian-mini-notes plugin (TypeScript) in Lean 4.

Strings are modelled as their `List Char` contents (`String.data`); the
JavaScript regular expressions used by the plugin are modelled as explicit
character-list scanners with the same matching semantics (lazy/greedy
quantifiers, `g`/`m` flags) on the inputs the plugin feeds them.
JavaScript numbers appearing in the code (modification times, comparator
results, timer durations) are modelled as `Int`.
-/

namespace MiniNotes


/-- Apostrophe character (code 39). -/
def apos : Char := Char.ofNat 39

/-- Backtick character (code 96). -/
def btick : Char := Char.ofNat 96

/-- Character class of `TAG_SEGMENT_PATTERN = '[0-9A-Za-z_-]+(?:\/[0-9A-Za-z_-]+)*'`
(src/src/utils/markdown.ts line 1): ASCII letters, digits, underscore, hyphen. -/
def isTagChar (c : Char) : Bool := c.isAlpha || c.isDigit || c == '_' || c == '-'

/-- JavaScript `\s` on the ASCII range: space, tab, LF, CR, VT, FF. -/
def isJsSpace (c : Char) : Bool :=
  c == ' ' || c == '\t' || c == '\n' || c == '\r' || c == Char.ofNat 11 || c == Char.ofNat 12

/-- Greedy match of `(?:\/[0-9A-Za-z_-]+)*`: consume as many `/segment`
repeats as possible.  Returns (consumed, rest).  `fuel ≥ cs.length` suffices
since every iteration consumes at least two characters. -/
def tagSegsAux : Nat → List Char → List Char × List Char
  | 0, cs => ([], cs)
  | fuel + 1, cs =>
    match cs with
    | '/' :: rest =>
      let seg := rest.takeWhile isTagChar
      if seg.isEmpty then ([], cs)
      else
        let (more, rest2) := tagSegsAux fuel (rest.dropWhile isTagChar)
        ('/' :: seg ++ more, rest2)
    | _ => ([], cs)

/-- Greedy match of the whole tag body `[0-9A-Za-z_-]+(?:\/[0-9A-Za-z_-]+)*`
at the head of `cs`; `none` when the first character is not a tag character. -/
def matchTagBody (cs : List Char) : Option (List Char × List Char) :=
  let seg := cs.takeWhile isTagChar
  if seg.isEmpty then none
  else
    let rest := cs.dropWhile isTagChar
    let (more, rest2) := tagSegsAux rest.length rest
    some (seg ++ more, rest2)

/-- Scan loop of `tagRegex.exec` for `(?:^|\s)#(TAG_SEGMENT_PATTERN)` with the
`g` flag, at positions after the start of the string: a match here consumes a
whitespace character, `#`, and the tag body.  Emits the matched group with its
leading `#` (as built by `'#' + match[1]` in `extractTags`). -/
def scanInlineAux : Nat → List Char → List (List Char)
  | 0, _ => []
  | _, [] => []
  | fuel + 1, c :: rest =>
    if isJsSpace c then
      match rest with
      | '#' :: rest2 =>
        match matchTagBody rest2 with
        | some (body, rest3) => ('#' :: body) :: scanInlineAux fuel rest3
        | none => scanInlineAux fuel rest
      | _ => scanInlineAux fuel rest
    else scanInlineAux fuel rest

/-- Full inline-tag scan: the `^` alternative can only fire at position 0
(the regex has no `m` flag); afterwards matches need a preceding whitespace. -/
def scanInline (cs : List Char) : List (List Char) :=
  match cs with
  | '#' :: rest =>
    match matchTagBody rest with
    | some (body, rest2) => ('#' :: body) :: scanInlineAux rest2.length rest2
    | none => scanInlineAux cs.length cs
  | _ => scanInlineAux cs.length cs

/-- `if (!tags.includes(tag)) tags.push(tag)` -/
def pushUnique (acc : List String) (t : String) : List String :=
  if t ∈ acc then acc else acc ++ [t]

/-- Prefix of `cs` strictly before the first occurrence of `pat`
(the lazy `([\s\S]*?)` capture in front of a literal).  `fuel ≥ cs.length`. -/
def splitAtFirst (pat : List Char) : Nat → List Char → Option (List Char)
  | 0, _ => none
  | fuel + 1, cs =>
    if pat.isPrefixOf cs then some []
    else
      match cs with
      | [] => none
      | c :: rest => (splitAtFirst pat fuel rest).map (fun l => c :: l)

/-- The front-matter match `content.match` with `^---\n([\s\S]*?)\n---`: the captured body,
i.e. the text between the opening `---` line and the first following `\n---`. -/
def fmBlock (cs : List Char) : Option (List Char) :=
  match cs with
  | '-' :: '-' :: '-' :: '\n' :: rest => splitAtFirst ['\n', '-', '-', '-'] (rest.length + 1) rest
  | _ => none

/-- JavaScript `String.prototype.trim` (ASCII whitespace). -/
def jsTrim (cs : List Char) : List Char :=
  ((cs.dropWhile isJsSpace).reverse.dropWhile isJsSpace).reverse

/-- Quote characters stripped by `.replace(/^["']|["']$/g, '')`. -/
def isQuote (c : Char) : Bool := c == '"' || c == apos

/-- `.replace(/^["']|["']$/g, '')`: drop one leading and one trailing quote. -/
def stripQuotes (cs : List Char) : List Char :=
  let l1 := match cs with
    | c :: rest => if isQuote c then rest else cs
    | [] => []
  match l1.reverse with
  | c :: rest => if isQuote c then rest.reverse else l1
  | [] => l1

/-- First position after a line-start occurrence of `tags:`
(the `/^tags:/m` search; `^` with the `m` flag matches at position 0 and
right after each newline). -/
def findTagsRest : Nat → Bool → List Char → Option (List Char)
  | 0, _, _ => none
  | fuel + 1, atStart, cs =>
    if atStart && ['t', 'a', 'g', 's', ':'].isPrefixOf cs then some (cs.drop 5)
    else
      match cs with
      | [] => none
      | c :: rest => findTagsRest fuel (c == '\n') rest

/-- Tags produced by the `tagsLineMatch` branch of `extractFrontmatterTags`
(src/src/utils/markdown.ts lines 12-29): find the first line starting with
`tags:`, skip the following whitespace greedily (`\s*` may cross newlines),
capture `(.*)$` to the end of that line, trim it, then parse either the
bracketed array form or the single-value form. -/
def fmLineTags (fm : List Char) : List (List Char) :=
  match findTagsRest (fm.length + 1) true fm with
  | none => []
  | some rest =>
    let tagsValue := jsTrim ((rest.dropWhile isJsSpace).takeWhile (fun c => !(c == '\n')))
    match tagsValue with
    | '[' :: afterBracket =>
      -- tagsValue.match(/\[(.*)\]/): capture between the first '[' and the last ']'
      match afterBracket.reverse.dropWhile (fun c => !(c == ']')) with
      | ']' :: revInner =>
        let inner := revInner.reverse
        (inner.splitOn ',').foldl
          (fun acc item =>
            let tag := stripQuotes (jsTrim item)
            if tag.isEmpty then acc else acc ++ [('#' :: tag)]) []
      | _ => []
    | [] => []
    | v => [('#' :: stripQuotes v)]

/-- A line matching an item of `/^\s+-\s+(.+)$/`: at least one leading
whitespace character, a dash, then a whitespace character followed by at
least one further character. -/
def isItemLine (line : List Char) : Bool :=
  !(line.takeWhile isJsSpace).isEmpty &&
    (match line.dropWhile isJsSpace with
     | '-' :: d :: _ :: _ => isJsSpace d
     | _ => false)

/-- `item.replace(/^\s+-\s+/, '').trim()` followed by quote stripping. -/
def itemValue (line : List Char) : List Char :=
  stripQuotes (jsTrim (((line.dropWhile isJsSpace).drop 1).dropWhile isJsSpace))

/-- Lines of a string (`\n`-separated). -/
def splitLines (cs : List Char) : List (List Char) := cs.splitOn '\n'

/-- Item lines of the `listMatch` branch
(`/^tags:\s*\n((?:\s+-\s+.+\n?)+)/m` then `/^\s+-\s+(.+)$/gm`): the first
line reading `tags:` (plus optional trailing whitespace) that is directly
followed by at least one dash-item line; the items are the following
consecutive dash-item lines. -/
def findListItems : List (List Char) → List (List Char)
  | [] => []
  | line :: rest =>
    if ['t', 'a', 'g', 's', ':'].isPrefixOf line && (line.drop 5).all isJsSpace then
      let items := rest.takeWhile isItemLine
      if items.isEmpty then findListItems rest else items
    else findListItems rest

/-- `extractFrontmatterTags` (src/src/utils/markdown.ts lines 4-49). -/
def extractFrontmatterTags (content : String) : List String :=
  match fmBlock content.data with
  | none => []
  | some fm =>
    let t1 := (fmLineTags fm).map fun l => String.mk l
    let items := (findListItems (splitLines fm)).map itemValue
    items.foldl
      (fun acc it =>
        if it.isEmpty then acc
        else
          let tg := String.mk ('#' :: it)
          if tg ∈ acc then acc else acc ++ [tg]) t1

/-- `extractTags` (src/src/utils/markdown.ts lines 53-75): inline tags in
encounter order, deduplicated, then front-matter tags appended when not
already present. -/
def extractTags (content : String) : List String :=
  let inline := (scanInline content.data).map fun l => String.mk l
  let t1 := inline.foldl pushUnique []
  (extractFrontmatterTags content).foldl pushUnique t1

/-! ### stripMarkdown (src/src/utils/markdown.ts lines 78-95)

Each `.replace(..., ...)` pass with the `g` flag is modelled as a left-to-right
walk that, at every position, either fires the pattern (consuming the match and
emitting its replacement, then continuing after the match as the regex engine
does) or copies one character and moves on. -/

/-- Generic `g`-flag replace walk.  `att cs` returns the replacement text and
the rest of the input after the match when the pattern matches at the head of
`cs`.  A successful match always consumes at least one character, so
`fuel ≥ cs.length` suffices. -/
def scanStrip (att : List Char → Option (List Char × List Char)) :
    Nat → List Char → List Char
  | 0, cs => cs
  | _ + 1, [] => []
  | fuel + 1, c :: rest =>
    match att (c :: rest) with
    | some (repl, rest2) => repl ++ scanStrip att fuel rest2
    | none => c :: scanStrip att fuel rest

/-- Generic `gm`-flag replace walk for line-anchored patterns (`^...`): the
matcher may only fire at position 0 or right after a newline.  The matcher
returns the replacement, whether the last consumed character was a newline,
and the rest. -/
def gmStrip (att : List Char → Option (List Char × Bool × List Char)) :
    Nat → Bool → List Char → List Char
  | 0, _, cs => cs
  | _ + 1, _, [] => []
  | fuel + 1, atStart, c :: rest =>
    match if atStart then att (c :: rest) else none with
    | some (repl, nl, rest2) => repl ++ gmStrip att fuel nl rest2
    | none => c :: gmStrip att fuel (c == '\n') rest

/-- Matcher for `^#+\s+` (headers): a run of `#`, then a nonempty greedy
whitespace run (which may cross newlines). -/
def headerAtt (cs : List Char) : Option (List Char × Bool × List Char) :=
  let hashes := cs.takeWhile (fun c => c == '#')
  if hashes.isEmpty then none
  else
    let rest := cs.dropWhile (fun c => c == '#')
    let ws := rest.takeWhile isJsSpace
    if ws.isEmpty then none
    else some ([], ws.getLastD ' ' == '\n', rest.dropWhile isJsSpace)

/-- Matcher for `^>\s+` (blockquotes). -/
def bqAtt (cs : List Char) : Option (List Char × Bool × List Char) :=
  match cs with
  | '>' :: rest =>
    let ws := rest.takeWhile isJsSpace
    if ws.isEmpty then none
    else some ([], ws.getLastD ' ' == '\n', rest.dropWhile isJsSpace)
  | _ => none

/-- Matcher for `^[-*+]\s+` (list items). -/
def listAtt (cs : List Char) : Option (List Char × Bool × List Char) :=
  match cs with
  | c :: rest =>
    if c == '-' || c == '*' || c == '+' then
      let ws := rest.takeWhile isJsSpace
      if ws.isEmpty then none
      else some ([], ws.getLastD ' ' == '\n', rest.dropWhile isJsSpace)
    else none
  | _ => none

/-- Matcher for `^\d+\.\s+` (numbered lists). -/
def numAtt (cs : List Char) : Option (List Char × Bool × List Char) :=
  let digits := cs.takeWhile Char.isDigit
  if digits.isEmpty then none
  else
    match cs.dropWhile Char.isDigit with
    | '.' :: rest =>
      let ws := rest.takeWhile isJsSpace
      if ws.isEmpty then none
      else some ([], ws.getLastD ' ' == '\n', rest.dropWhile isJsSpace)
    | _ => none

/-- Lazy search for the closing delimiter of `\*\*(.+?)\*\*` and friends:
grow the (nonempty, newline-free) content one character at a time until the
closing delimiter follows.  Returns (content, rest after the closer). -/
def findClose (delim : List Char) : Nat → List Char → List Char → Option (List Char × List Char)
  | 0, _, _ => none
  | fuel + 1, acc, cs =>
    if !acc.isEmpty && delim.isPrefixOf cs then some (acc.reverse, cs.drop delim.length)
    else
      match cs with
      | [] => none
      | '\n' :: _ => none
      | c :: rest => findClose delim fuel (c :: acc) rest

/-- Matcher for a symmetric pair delimiter (`**`, `*`, `__`, `_`, `~~`),
replacement is the captured content (`$1`). -/
def pairAtt (delim : List Char) (cs : List Char) : Option (List Char × List Char) :=
  if delim.isPrefixOf cs then
    let afterOpen := cs.drop delim.length
    (findClose delim (afterOpen.length + 1) [] afterOpen).map fun p => p
  else none

/-- Matcher for the code pattern: one to three backticks (greedy), a greedy
run of non-backticks, then one to three closing backticks; replacement is
empty.  When the opening run is longer than three, the opener takes three
backticks and the closer starts immediately inside the run.  When the whole
run is taken by the opener but no further backtick exists, the opener
backtracks to leave one backtick as closer (possible when the run has at
least two). -/
def codeAtt (cs : List Char) : Option (List Char × List Char) :=
  match cs with
  | c :: _ =>
    if c == btick then
      let run := (cs.takeWhile (fun c => c == btick)).length
      if run ≥ 4 then some ([], cs.drop (3 + min 3 (run - 3)))
      else
        let afterRun := cs.drop run
        let content := afterRun.takeWhile (fun c => !(c == btick))
        let afterContent := afterRun.drop content.length
        let r2 := (afterContent.takeWhile (fun c => c == btick)).length
        if r2 ≥ 1 then some ([], afterContent.drop (min 3 r2))
        else if run ≥ 2 then some ([], cs.drop run)
        else none
    else none
  | [] => none

/-- Matcher for links `\[([^\]]+)\]\([^)]+\)`, replacement is the link text. -/
def linkAtt (cs : List Char) : Option (List Char × List Char) :=
  match cs with
  | '[' :: rest =>
    let content := rest.takeWhile (fun c => !(c == ']'))
    if content.isEmpty then none
    else
      match rest.drop content.length with
      | ']' :: '(' :: rest2 =>
        let url := rest2.takeWhile (fun c => !(c == ')'))
        if url.isEmpty then none
        else
          match rest2.drop url.length with
          | ')' :: rest3 => some (content, rest3)
          | _ => none
      | _ => none
  | _ => none

/-- Matcher for images `!\[([^\]]*)\]\([^)]+\)`, replacement is empty
(the alt text may be empty). -/
def imageAtt (cs : List Char) : Option (List Char × List Char) :=
  match cs with
  | '!' :: '[' :: rest =>
    let content := rest.takeWhile (fun c => !(c == ']'))
    match rest.drop content.length with
    | ']' :: '(' :: rest2 =>
      let url := rest2.takeWhile (fun c => !(c == ')'))
      if url.isEmpty then none
      else
        match rest2.drop url.length with
        | ')' :: rest3 => some ([], rest3)
        | _ => none
    | _ => none
  | _ => none

/-- Rest of the input after the first occurrence of `pat`
(used for the non-lazy tail of the front-matter pattern). -/
def findSubEnd (pat : List Char) : Nat → List Char → Option (List Char)
  | 0, _ => none
  | fuel + 1, cs =>
    if pat.isPrefixOf cs then some (cs.drop pat.length)
    else
      match cs with
      | [] => none
      | _ :: rest => findSubEnd pat fuel rest

/-- First pass of `stripMarkdown`: `^---[\s\S]*?---\n?` (non-global,
anchored at position 0; lazy middle, then an optional newline). -/
def stripFrontBlock (cs : List Char) : List Char :=
  match cs with
  | '-' :: '-' :: '-' :: rest =>
    match findSubEnd ['-', '-', '-'] (rest.length + 1) rest with
    | some rest2 =>
      match rest2 with
      | '\n' :: r => r
      | _ => rest2
    | none => cs
  | _ => cs

/-- Tag-removal walk at non-initial positions (replacement is empty; the
matched leading whitespace is removed together with the tag). -/
def stripTagsAux : Nat → List Char → List Char
  | 0, cs => cs
  | _ + 1, [] => []
  | fuel + 1, c :: rest =>
    if isJsSpace c then
      match rest with
      | '#' :: rest2 =>
        match matchTagBody rest2 with
        | some (_, rest3) => stripTagsAux fuel rest3
        | none => c :: stripTagsAux fuel rest
      | _ => c :: stripTagsAux fuel rest
    else c :: stripTagsAux fuel rest

/-- Tag-removal pass (the same regex as the inline-tag scan, replaced by
the empty string). -/
def stripTags (cs : List Char) : List Char :=
  match cs with
  | '#' :: rest =>
    match matchTagBody rest with
    | some (_, rest2) => stripTagsAux rest2.length rest2
    | none => stripTagsAux cs.length cs
  | _ => stripTagsAux cs.length cs

/-- `stripMarkdown` (src/src/utils/markdown.ts lines 78-95): the thirteen
replacement passes in source order, then `trim`. -/
def stripMarkdown (s : String) : String :=
  let c1 := stripFrontBlock s.data
  let c2 := gmStrip headerAtt c1.length true c1
  let c3 := scanStrip (pairAtt ['*', '*']) c2.length c2
  let c4 := scanStrip (pairAtt ['*']) c3.length c3
  let c5 := scanStrip (pairAtt ['_', '_']) c4.length c4
  let c6 := scanStrip (pairAtt ['_']) c5.length c5
  let c7 := scanStrip (pairAtt ['~', '~']) c6.length c6
  let c8 := scanStrip codeAtt c7.length c7
  let c9 := scanStrip linkAtt c8.length c8
  let c10 := scanStrip imageAtt c9.length c9
  let c11 := gmStrip bqAtt c10.length true c10
  let c12 := gmStrip listAtt c11.length true c11
  let c13 := gmStrip numAtt c12.length true c12
  String.mk (jsTrim (stripTags c13))

/-- The newline collapse in `getPreviewText`: `\n{2,}` replaced by `\n`. -/
def collapseNewlines : Nat → List Char → List Char
  | 0, cs => cs
  | _ + 1, [] => []
  | fuel + 1, c :: rest =>
    match c, rest with
    | '\n', '\n' :: rest2 => '\n' :: collapseNewlines fuel (rest2.dropWhile (fun c => c == '\n'))
    | _, _ => c :: collapseNewlines fuel rest

/-- The collapsed and trimmed preview body computed by `getPreviewText`
before truncation. -/
def previewCore (s : String) : List Char :=
  let text := (stripMarkdown s).data
  jsTrim (collapseNewlines text.length text)

/-- `getPreviewText` (src/src/utils/markdown.ts lines 98-107). -/
def getPreviewText (s : String) (maxLength : Nat) : String :=
  let text2 := previewCore s
  if text2.length > maxLength then String.mk (jsTrim (text2.take maxLength) ++ ['.', '.', '.'])
  else String.mk text2

/-- Index of the first occurrence of a tag in a list of tags
(`l.length` when absent). -/
def firstIdx (l : List String) (t : String) : Nat := l.findIdx (fun q => q == t)

/-- The raw tag stream of `extractTags` before deduplication: the inline tag
occurrences in scan order, followed by the front-matter tags in their
extraction order. -/
def rawTags (content : String) : List String :=
  (scanInline content.data).map (fun l => String.mk l) ++ extractFrontmatterTags content

/-- Relation on adjacent characters stating that a `#` is never directly
followed by a tag character. -/
def noTagRel (a b : Char) : Prop := a = '#' → isTagChar b = false

instance : DecidableRel noTagRel := fun a b =>
  inferInstanceAs (Decidable (a = '#' → isTagChar b = false))

/-! ### Idempotence of stripMarkdown on plain text -/

/-- Characters that trigger none of the `stripMarkdown` replacement
patterns: letters, digits, space, newline. -/
def plainChar (c : Char) : Bool := c.isAlpha || c.isDigit || c == ' ' || c == '\n'

/-! ### Collection state store (src/unnamed/part_005, `VisualDashboardPlugin`) -/

/-- A file entry of the host's listing: path and last-modified time
(`file.stat.mtime`). -/
structure NoteFile where
  path : String
  mtime : Int
deriving DecidableEq, Repr

/-- The persisted plugin state used by the ordering and reconciliation claims
(`DashboardData` in src/src/types.ts): pinned paths, manual order, and the
path-to-color object, modelled as an association list. -/
structure DashboardData where
  pinnedNotes : List String
  noteOrder : List String
  noteColors : List (String × String)
deriving DecidableEq, Repr

/-- JavaScript object read `noteColors[path]`. -/
def lookupColor (m : List (String × String)) (k : String) : Option String :=
  (m.find? (fun kv => kv.1 == k)).map (fun kv => kv.2)

/-- Truthiness of `noteColors[path]`: the key is present with a nonempty
value (the empty string is falsy in JavaScript). -/
def colorTruthy (m : List (String × String)) (k : String) : Bool :=
  match lookupColor m k with
  | some v => !(v == "")
  | none => false

/-- JavaScript object write `noteColors[k] = v`: replace the value at an
existing key, else append the new key. -/
def objSet : List (String × String) → String → String → List (String × String)
  | [], k, v => [(k, v)]
  | kv :: rest, k, v => if kv.1 == k then (k, v) :: rest else kv :: objSet rest k v

/-- JavaScript `delete noteColors[k]`: remove the entries with that key. -/
def objDelete : List (String × String) → String → List (String × String)
  | [], _ => []
  | kv :: rest, k => if kv.1 == k then objDelete rest k else kv :: objDelete rest k

/-- `isPinned` (part_005 lines 116-118): `pinnedNotes.includes(filePath)`. -/
def isPinned (d : DashboardData) (filePath : String) : Bool :=
  d.pinnedNotes.contains filePath

/-- `togglePin` (part_005 lines 120-136): returns the new pinned state, the
new data, and the number of `savePluginData` calls issued by the call. -/
def togglePin (d : DashboardData) (filePath : String) : Bool × DashboardData × Nat :=
  if d.pinnedNotes.contains filePath then
    (false, { d with pinnedNotes := d.pinnedNotes.erase filePath }, 1)
  else
    (true, { d with pinnedNotes := d.pinnedNotes ++ [filePath] }, 1)

/-- `getOrderIndex` (part_005 lines 138-140): `noteOrder.indexOf(filePath)`,
`-1` when absent. -/
def getOrderIndex (noteOrder : List String) (filePath : String) : Int :=
  match noteOrder.findIdx? (fun q => q == filePath) with
  | some i => (i : Int)
  | none => -1

/-- The `pinnedNotes` / `noteOrder` update of `handleFileRename`:
`if (index > -1) list[index] = newPath` (replace at the found index). -/
def renameAt (l : List String) (oldPath newPath : String) : List String :=
  match l.findIdx? (fun q => q == oldPath) with
  | some i => l.set i newPath
  | none => l

/-- The `noteColors` update of `handleFileRename`:
`if (noteColors[oldPath]) { noteColors[newPath] = noteColors[oldPath];
delete noteColors[oldPath] }` (JS truthiness guard). -/
def renameColors (m : List (String × String)) (oldPath newPath : String) :
    List (String × String) :=
  if colorTruthy m oldPath then
    match lookupColor m oldPath with
    | some v => objDelete (objSet m newPath v) oldPath
    | none => m
  else m

/-- `handleFileRename` (part_005 lines 388-420): reconcile all three
structures; returns the new data and the number of `savePluginData` calls
(1 exactly when some structure changed, via the `dataChanged` flag). -/
def handleFileRename (d : DashboardData) (oldPath newPath : String) : DashboardData × Nat :=
  let dataChanged := colorTruthy d.noteColors oldPath
    || (d.pinnedNotes.findIdx? (fun q => q == oldPath)).isSome
    || (d.noteOrder.findIdx? (fun q => q == oldPath)).isSome
  (⟨renameAt d.pinnedNotes oldPath newPath,
    renameAt d.noteOrder oldPath newPath,
    renameColors d.noteColors oldPath newPath⟩,
   if dataChanged then 1 else 0)

/-- The `pinnedNotes` / `noteOrder` update of `handleFileDelete`:
`if (index > -1) list.splice(index, 1)`. -/
def deleteAt (l : List String) (p : String) : List String :=
  match l.findIdx? (fun q => q == p) with
  | some i => l.eraseIdx i
  | none => l

/-- The `noteColors` update of `handleFileDelete`:
`if (noteColors[path]) delete noteColors[path]`. -/
def deleteColors (m : List (String × String)) (p : String) : List (String × String) :=
  if colorTruthy m p then objDelete m p else m

/-- `handleFileDelete` (part_005 lines 422-451): remove the path from all
three structures; returns the new data and the number of `savePluginData`
calls (1 exactly when something was removed). -/
def handleFileDelete (d : DashboardData) (p : String) : DashboardData × Nat :=
  let dataChanged := colorTruthy d.noteColors p
    || (d.pinnedNotes.findIdx? (fun q => q == p)).isSome
    || (d.noteOrder.findIdx? (fun q => q == p)).isSome
  (⟨deleteAt d.pinnedNotes p, deleteAt d.noteOrder p, deleteColors d.noteColors p⟩,
   if dataChanged then 1 else 0)

/-! ### Card pipeline ordering (src/unnamed/part_001, `renderCards`) -/

/-- The `sortByOrder` comparator (part_001 lines 319-327). -/
def cmpFiles (noteOrder : List String) (a b : NoteFile) : Int :=
  let aOrder := getOrderIndex noteOrder a.path
  let bOrder := getOrderIndex noteOrder b.path
  if aOrder > -1 ∧ bOrder > -1 then aOrder - bOrder
  else if aOrder > -1 then -1
  else if bOrder > -1 then 1
  else b.mtime - a.mtime

/-- The order induced by the comparator (`sort` puts `a` before `b` when the
comparator is nonpositive). -/
def fileLE (noteOrder : List String) (a b : NoteFile) : Prop :=
  cmpFiles noteOrder a b ≤ 0

instance (noteOrder : List String) : DecidableRel (fileLE noteOrder) := fun a b =>
  inferInstanceAs (Decidable (cmpFiles noteOrder a b ≤ 0))

/-- `files.sort(sortByOrder)`: a stable sort with the comparator. -/
def sortByOrder (noteOrder : List String) (files : List NoteFile) : List NoteFile :=
  files.insertionSort (fileLE noteOrder)

/-- The partition and per-group sort of `renderCards` (part_001 lines
329-331): pinned files first, unpinned files second, each group sorted by
`sortByOrder`. -/
def renderGroups (pinned noteOrder : List String) (files : List NoteFile) :
    List NoteFile × List NoteFile :=
  (sortByOrder noteOrder (files.filter (fun f => pinned.contains f.path)),
   sortByOrder noteOrder (files.filter (fun f => !(pinned.contains f.path))))

/-- `this.currentFiles = [...pinnedFiles, ...unpinnedFiles]` (part_001 line
334). -/
def currentFiles (pinned noteOrder : List String) (files : List NoteFile) : List NoteFile :=
  (renderGroups pinned noteOrder files).1 ++ (renderGroups pinned noteOrder files).2

/-! ### Debounced refresh scheduler (src/unnamed/part_001 lines 214-223 and
src/unnamed/part_002 lines 506-515) -/

/-- `DEBOUNCE_REFRESH_MS` (src constants module). -/
def DEBOUNCE_REFRESH_MS : Int := 1000

/-- One file-change event at time `t`: a pending timeout that has already
expired has fired (is recorded); any still-pending timeout is cancelled
(`clearTimeout`) and a new one is scheduled at `t + DEBOUNCE_REFRESH_MS`
(`setTimeout`). State: (pending fire time, fired refresh times so far). -/
def debounceStep (s : Option Int × List Int) (t : Int) : Option Int × List Int :=
  match s.1 with
  | some f =>
    if f ≤ t then (some (t + DEBOUNCE_REFRESH_MS), s.2 ++ [f])
    else (some (t + DEBOUNCE_REFRESH_MS), s.2)
  | none => (some (t + DEBOUNCE_REFRESH_MS), s.2)

/-- All refresh (pipeline re-run) times produced by a sequence of
file-change events, including the final pending timeout firing after the
last event. -/
def runDebounce (events : List Int) : List Int :=
  let s := events.foldl debounceStep (none, [])
  match s.1 with
  | some f => s.2 ++ [f]
  | none => s.2

/-! ### Quick note creation (src/unnamed/part_005 `createMiniNote`,
`createQuickNote`; src/src/views/quick-note-bar.ts `saveNote`).
The host's `normalizePath` is modelled as the identity on the already-normal
paths built here; `Date` formatting is passed in as `dateStr`/`timeStr`;
the vault file listing is a list of paths. -/

/-- The character class of `title.replace(/[\\/:*?"<>|]/g, '-')`. -/
def isInvalidFileChar (c : Char) : Bool :=
  c == '\\' || c == '/' || c == ':' || c == '*' || c == '?' || c == '"' ||
    c == '<' || c == '>' || c == '|'

/-- `.replace(/\s+/g, ' ')`: collapse each whitespace run to one space. -/
def collapseWs : Nat → List Char → List Char
  | 0, cs => cs
  | _ + 1, [] => []
  | fuel + 1, c :: rest =>
    if isJsSpace c then ' ' :: collapseWs fuel (rest.dropWhile isJsSpace)
    else c :: collapseWs fuel rest

/-- The filename sanitizer in `createQuickNote` (part_005 lines 279-283):
replace invalid characters by `-`, normalize spaces, trim, limit to 100. -/
def sanitizeTitle (t : String) : String :=
  let replaced := t.data.map (fun c => if isInvalidFileChar c then '-' else c)
  String.mk ((jsTrim (collapseWs replaced.length replaced)).take 100)

/-- `content.split(/\s+/)` (JavaScript `String.split` with a regex:
separators at the ends produce empty fragments). -/
def splitWsAux : Nat → List Char → List Char → List (List Char)
  | 0, acc, _ => [acc.reverse]
  | _ + 1, acc, [] => [acc.reverse]
  | fuel + 1, acc, c :: rest =>
    if isJsSpace c then acc.reverse :: splitWsAux fuel [] (rest.dropWhile isJsSpace)
    else splitWsAux fuel (c :: acc) rest

def jsSplitWs (cs : List Char) : List (List Char) := splitWsAux cs.length [] cs

/-- The derived title in `saveNote` (quick-note-bar.ts lines 150-156): the
first five whitespace-separated words of the body, with `...` appended when
the body has more than five words. -/
def deriveTitle (content : String) : String :=
  let words := jsSplitWs content.data
  let t := String.mk (List.intercalate [' '] (words.take 5))
  if words.length > 5 then t ++ "..." else t

/-- Decimal rendering of the collision counter (template `(${counter})`). -/
def decRepr (n : Nat) : String :=
  if n = 0 then "0" else String.mk (((Nat.digits 10 n).reverse).map Nat.digitChar)

/-- `fileName.replace('.md', '')`: remove the first occurrence of the
pattern (JavaScript `String.replace` with a string pattern). -/
def removeFirstSub (pat : List Char) : Nat → List Char → List Char
  | 0, cs => cs
  | _ + 1, [] => []
  | fuel + 1, c :: rest =>
    if pat.isPrefixOf (c :: rest) then (c :: rest).drop pat.length
    else c :: removeFirstSub pat fuel rest

/-- `folderPath === '/' ? normalizePath(fileName) :
normalizePath(folderPath + '/' + fileName)`. -/
def joinPath (folderPath fileName : String) : String :=
  if folderPath = "/" then fileName else folderPath ++ "/" ++ fileName

/-- The collision loop of `createMiniNote` (part_005 lines 210-219): while
the candidate path exists in the vault, rebuild the name as
`date (counter).md` and increment the counter.  The JavaScript loop is
unbounded; the fuel only bounds this model, and
`createMiniNotePath` supplies enough fuel for the loop to finish. -/
def miniLoop (vault : List String) (folderPath dateStr : String) :
    Nat → Nat → String → Option String
  | 0, _, _ => none
  | fuel + 1, counter, fileName =>
    if joinPath folderPath fileName ∈ vault then
      miniLoop vault folderPath dateStr fuel (counter + 1)
        (dateStr ++ " (" ++ decRepr counter ++ ").md")
    else some (joinPath folderPath fileName)

/-- The path finally passed to `vault.create` by `createMiniNote`. -/
def createMiniNotePath (vault : List String) (folderPath dateStr : String) : Option String :=
  miniLoop vault folderPath dateStr (vault.length + 1) 1 (dateStr ++ ".md")

/-- The collision loop of `createQuickNote` (part_005 lines 292-301): the
base name is recomputed from the current file name by dropping the first
`.md`, then the counter suffix is appended. -/
def quickLoop (vault : List String) (folderPath : String) :
    Nat → Nat → String → Option String
  | 0, _, _ => none
  | fuel + 1, counter, fileName =>
    if joinPath folderPath fileName ∈ vault then
      quickLoop vault folderPath fuel (counter + 1)
        (String.mk (removeFirstSub ['.', 'm', 'd'] fileName.data.length fileName.data)
          ++ " (" ++ decRepr counter ++ ").md")
    else some (joinPath folderPath fileName)

/-- `createQuickNote` (part_005 lines 236-330): the created file's path and
content.  A nonempty title becomes the sanitized filename and a leading
`# title` heading; an empty title yields a date-time filename and no
heading. -/
def createQuickNote (title content dateStr timeStr folderPath : String)
    (vault : List String) : Option (String × String) :=
  match quickLoop vault folderPath (vault.length + 1) 1
      (if title = "" then dateStr ++ " " ++ timeStr ++ ".md"
       else sanitizeTitle title ++ ".md") with
  | some filePath =>
    some (filePath,
      (if title = "" then "" else "# " ++ title ++ "\n\n") ++
        (if content = "" then "" else content))
  | none => none

/-- `QuickNoteBar.saveNote` / `QuickNoteModal.saveNote` (quick-note-bar.ts
lines 140-165): trim both inputs, refuse when both are empty, derive a title
from the body when the title is empty, then create the note. -/
def saveNote (titleInput contentInput dateStr timeStr folderPath : String)
    (vault : List String) : Option (String × String) :=
  let title := String.mk (jsTrim titleInput.data)
  let content := String.mk (jsTrim contentInput.data)
  if title = "" ∧ content = "" then none
  else
    let title2 := if title = "" then deriveTitle content else title
    createQuickNote title2 content dateStr timeStr folderPath vault

/-- The successive file-name candidates tried by `createMiniNote`. -/
def miniCand (dateStr : String) : Nat → String
  | 0 => dateStr ++ ".md"
  | k + 1 => dateStr ++ " (" ++ decRepr (k + 1) ++ ").md"

/-! ### Lemmas about tag extraction -/

theorem pushUnique_nodup (acc : List String) (t : String) (h : acc.Nodup) :
    (pushUnique acc t).Nodup := by
  unfold pushUnique
  split
  · exact h
  · exact List.Nodup.append h (List.nodup_singleton t)
      (by simpa [List.disjoint_singleton] using (by assumption : ¬t ∈ acc))

theorem foldl_pushUnique_nodup : ∀ (l acc : List String), acc.Nodup → (l.foldl pushUnique acc).Nodup
  | [], _, h => h
  | t :: rest, acc, h => foldl_pushUnique_nodup rest _ (pushUnique_nodup acc t h)

theorem mem_pushUnique_left {acc : List String} {x : String} (t : String) (h : x ∈ acc) :
    x ∈ pushUnique acc t := by
  unfold pushUnique
  split
  · exact h
  · exact List.mem_append_left _ h

theorem mem_pushUnique_self (acc : List String) (t : String) : t ∈ pushUnique acc t := by
  unfold pushUnique
  split
  · assumption
  · exact List.mem_append_right _ (List.mem_singleton.mpr rfl)

theorem mem_foldl_pushUnique :
    ∀ (l acc : List String) (x : String), x ∈ acc ∨ x ∈ l → x ∈ l.foldl pushUnique acc
  | [], _, _, h => h.elim id (fun h => absurd h (List.not_mem_nil _))
  | t :: rest, acc, x, h => by
    rcases h with h | h
    · exact mem_foldl_pushUnique rest _ x (Or.inl (mem_pushUnique_left t h))
    · rcases List.mem_cons.mp h with rfl | h
      · exact mem_foldl_pushUnique rest _ x (Or.inl (mem_pushUnique_self acc x))
      · exact mem_foldl_pushUnique rest _ x (Or.inr h)


theorem mem_pushUnique_elim {acc : List String} {t x : String} (h : x ∈ pushUnique acc t) :
    x ∈ acc ∨ x = t := by
  unfold pushUnique at h
  split at h
  · exact Or.inl h
  · rcases List.mem_append.mp h with h1 | h1
    · exact Or.inl h1
    · exact Or.inr (List.mem_singleton.mp h1)

theorem mem_foldl_pushUnique_iff : ∀ (l acc : List String) (x : String),
    x ∈ l.foldl pushUnique acc ↔ x ∈ acc ∨ x ∈ l := by
  intro l
  induction l with
  | nil => intro acc x; simp
  | cons t rest ih =>
    intro acc x
    constructor
    · intro h
      rcases (ih _ x).mp h with h1 | h1
      · rcases mem_pushUnique_elim h1 with h2 | h2
        · exact Or.inl h2
        · exact Or.inr (h2 ▸ List.mem_cons_self _ _)
      · exact Or.inr (List.mem_cons_of_mem _ h1)
    · intro h
      exact mem_foldl_pushUnique _ _ _ h

theorem firstIdx_lt_of_mem (pre suf : List String) (a : String) (h : a ∈ pre) :
    firstIdx (pre ++ suf) a < pre.length := by
  induction pre with
  | nil => cases h
  | cons p pre2 ih =>
    unfold firstIdx
    rw [List.cons_append, List.findIdx_cons]
    cases hb : p == a with
    | true => simp
    | false =>
      have ha : a ∈ pre2 := by
        rcases List.mem_cons.mp h with rfl | h2
        · rw [beq_self_eq_true] at hb
          exact absurd hb (by simp)
        · exact h2
      have := ih ha
      unfold firstIdx at this
      simp only [cond_false, List.length_cons]
      omega

theorem length_le_firstIdx_of_not_mem (pre suf : List String) (t : String) (h : t ∉ pre) :
    pre.length ≤ firstIdx (pre ++ suf) t := by
  induction pre with
  | nil => exact Nat.zero_le _
  | cons p pre2 ih =>
    unfold firstIdx
    rw [List.cons_append, List.findIdx_cons]
    have hb : (p == t) = false := by
      cases hb : p == t with
      | false => rfl
      | true => exact absurd (eq_of_beq hb ▸ List.mem_cons_self p pre2) h
    have := ih (fun h2 => h (List.mem_cons_of_mem _ h2))
    unfold firstIdx at this
    simp only [hb, cond_false, List.length_cons]
    omega

theorem foldl_pushUnique_pairwise_aux :
    ∀ (post pre acc : List String),
      (∀ x, x ∈ acc ↔ x ∈ pre) →
      acc.Pairwise (fun a b => firstIdx (pre ++ post) a < firstIdx (pre ++ post) b) →
      (post.foldl pushUnique acc).Pairwise
        (fun a b => firstIdx (pre ++ post) a < firstIdx (pre ++ post) b) := by
  intro post
  induction post with
  | nil => intro pre acc _ hpw; exact hpw
  | cons t rest ih =>
    intro pre acc hmem hpw
    show (rest.foldl pushUnique (pushUnique acc t)).Pairwise _
    have hassoc : pre ++ t :: rest = (pre ++ [t]) ++ rest := by simp
    simp only [hassoc] at hpw ⊢
    apply ih (pre ++ [t]) (pushUnique acc t)
    · intro x
      unfold pushUnique
      split
      · rename_i ht
        constructor
        · intro hx
          exact List.mem_append_left _ ((hmem x).mp hx)
        · intro hx
          rcases List.mem_append.mp hx with h1 | h1
          · exact (hmem x).mpr h1
          · exact (List.mem_singleton.mp h1) ▸ ht
      · constructor
        · intro hx
          rcases List.mem_append.mp hx with h1 | h1
          · exact List.mem_append_left _ ((hmem x).mp h1)
          · exact List.mem_append_right _ h1
        · intro hx
          rcases List.mem_append.mp hx with h1 | h1
          · exact List.mem_append_left _ ((hmem x).mpr h1)
          · exact List.mem_append_right _ h1
    · unfold pushUnique
      split
      · exact hpw
      · rename_i ht
        rw [List.pairwise_append]
        refine ⟨hpw, List.pairwise_singleton _ _, ?_⟩
        intro a ha b hb
        rw [List.mem_singleton.mp hb]
        have hapre : a ∈ pre := (hmem a).mp ha
        have htpre : t ∉ pre := fun htp => ht ((hmem t).mpr htp)
        have h1 : firstIdx ((pre ++ [t]) ++ rest) a < pre.length := by
          rw [List.append_assoc]
          exact firstIdx_lt_of_mem pre ([t] ++ rest) a hapre
        have h2 : pre.length ≤ firstIdx ((pre ++ [t]) ++ rest) t := by
          rw [List.append_assoc]
          exact length_le_firstIdx_of_not_mem pre ([t] ++ rest) t htpre
        omega

theorem foldl_pushUnique_pairwise (raw : List String) :
    (raw.foldl pushUnique []).Pairwise (fun a b => firstIdx raw a < firstIdx raw b) := by
  have h := foldl_pushUnique_pairwise_aux raw [] []
    (fun x => ⟨fun h => absurd h (List.not_mem_nil x), fun h => absurd h (List.not_mem_nil x)⟩)
    List.Pairwise.nil
  simpa using h

theorem extractTags_eq_foldl (content : String) :
    extractTags content = (rawTags content).foldl pushUnique [] := by
  unfold extractTags rawTags
  rw [List.foldl_append]

/-- C2: `extractTags` returns each occurring tag exactly once, in
first-encounter order: the result has no duplicates, it contains exactly the
tags of the raw stream (inline occurrences in scan order followed by the
front-matter tags), any two result entries are ordered by the position of
their first occurrence in that stream — so inline tags keep scan order and
front-matter tags are appended afterwards when not already present — and the
concrete examples from the specification evaluate as stated. -/
theorem extractTags_spec :
    (∀ content : String, (extractTags content).Nodup)
    ∧ (∀ (content : String) (t : String), t ∈ extractTags content ↔ t ∈ rawTags content)
    ∧ (∀ content : String, (extractTags content).Pairwise
        (fun t1 t2 => firstIdx (rawTags content) t1 < firstIdx (rawTags content) t2))
    ∧ extractTags "#a hi #b #a" = ["#a", "#b"]
    ∧ extractTags "---\ntags: [x, \"y\"]\n---\n#a #x more" = ["#a", "#x", "#y"] := by
  refine ⟨fun content => foldl_pushUnique_nodup _ _ (foldl_pushUnique_nodup _ _ List.nodup_nil),
    fun content t => ?_, fun content => ?_, by decide, by decide⟩
  · rw [extractTags_eq_foldl, mem_foldl_pushUnique_iff]
    simp
  · rw [extractTags_eq_foldl]
    exact foldl_pushUnique_pairwise _

/-- C2 witness: the membership characterization applied at a concrete input. -/
theorem extractTags_spec_witness :
    ("#b" ∈ extractTags "#a hi #b #a" ↔ "#b" ∈ rawTags "#a hi #b #a")
    ∧ "#b" ∈ extractTags "#a hi #b #a" :=
  ⟨extractTags_spec.2.1 "#a hi #b #a" "#b", by decide⟩

theorem matchTagBody_nil : matchTagBody [] = none := rfl

theorem matchTagBody_none {c : Char} (rest : List Char) (h : isTagChar c = false) :
    matchTagBody (c :: rest) = none := by
  unfold matchTagBody
  simp [List.takeWhile_cons, h]

theorem scanInlineAux_eq_nil :
    ∀ (fuel : Nat) (cs : List Char), List.Chain' noTagRel cs → scanInlineAux fuel cs = [] := by
  intro fuel
  induction fuel with
  | zero => intro cs _; cases cs <;> rfl
  | succ f ih =>
    intro cs h
    match cs with
    | [] => rfl
    | c :: rest =>
      show scanInlineAux (f + 1) (c :: rest) = []
      unfold scanInlineAux
      cases hs : isJsSpace c with
      | false =>
        simp only [hs, Bool.false_eq_true, if_false]
        exact ih rest h.tail
      | true =>
        simp only [hs, if_true]
        split
        · rename_i rest2
          cases rest2 with
          | nil => exact ih ['#'] (List.chain'_singleton _)
          | cons d rest3 =>
            have hrel : noTagRel '#' d := (List.chain'_cons.mp h.tail).1
            rw [matchTagBody_none rest3 (hrel rfl)]
            exact ih _ h.tail
        · exact ih rest h.tail

theorem scanInline_eq_nil (cs : List Char) (h : List.Chain' noTagRel cs) :
    scanInline cs = [] := by
  unfold scanInline
  split
  · rename_i rest
    cases rest with
    | nil => rfl
    | cons d rest2 =>
      have hrel : noTagRel '#' d := (List.chain'_cons.mp h).1
      rw [matchTagBody_none rest2 (hrel rfl)]
      exact scanInlineAux_eq_nil _ _ h
  · exact scanInlineAux_eq_nil _ _ h

/-- C6 counterexample: the inline-tag pattern accepts a digit directly after
`#`: `extractTags "#1"` returns `#1` although `1` is not a letter, so the
letter-first rule of the claim is refuted at this input. -/
theorem extractTags_digit_counterexample :
    extractTags "#1" = ["#1"] ∧ ('1'.isAlpha = false) ∧ extractTags "#1" ≠ [] := by
  refine ⟨by decide, by decide, by decide⟩

/-- C6 amended: an inline tag is recognized exactly when `#` sits at the start
of the text or after whitespace and is directly followed by a tag character
(letter, digit, underscore or hyphen, per `TAG_SEGMENT_PATTERN`), not only by
a letter.  When no `#` in the text is directly followed by a tag character,
the inline scan returns nothing; digits, underscores and hyphens directly
after `#` do produce tags; `#` preceded by a non-whitespace character
produces none. -/
theorem inline_tag_start_spec :
    (∀ cs : List Char, List.Chain' noTagRel cs → scanInline cs = [])
    ∧ extractTags "#1 #_a #-b" = ["#1", "#_a", "#-b"]
    ∧ extractTags "a#b ##c x" = [] := by
  refine ⟨fun cs h => scanInline_eq_nil cs h, by decide, by decide⟩

/-- C6 witness: the universal conjunct applied to a concrete character list in
which the only `#` is followed by a non-tag character. -/
theorem inline_tag_start_spec_witness :
    List.Chain' noTagRel ("a # b".data) ∧ scanInline ("a # b".data) = [] := by
  have hch : List.Chain' noTagRel ("a # b".data) := by
    show List.Chain' noTagRel ['a', ' ', '#', ' ', 'b']
    refine List.chain'_cons.mpr ⟨fun h => absurd h (by decide), ?_⟩
    refine List.chain'_cons.mpr ⟨fun h => absurd h (by decide), ?_⟩
    refine List.chain'_cons.mpr ⟨fun _ => by decide, ?_⟩
    refine List.chain'_cons.mpr ⟨fun h => absurd h (by decide), ?_⟩
    exact List.chain'_singleton _
  exact ⟨hch, inline_tag_start_spec.1 _ hch⟩

/-- C7 counterexample: `getPreviewText "a" 0` is `"..."`, not the empty
string, refuting the claim at this input. -/
theorem getPreviewText_zero_counterexample :
    getPreviewText "a" 0 = "..." ∧ getPreviewText "a" 0 ≠ "" := by
  refine ⟨by decide, by decide⟩

/-- C7 amended: with `maxLength = 0`, `getPreviewText` yields the empty string
when the stripped, collapsed and trimmed preview body is empty, and the bare
ellipsis `"..."` otherwise. -/
theorem getPreviewText_zero (s : String) :
    getPreviewText s 0 = if (previewCore s).isEmpty then "" else "..." := by
  unfold getPreviewText
  cases h : previewCore s with
  | nil => rfl
  | cons c rest =>
    rw [if_neg (show ¬((c :: rest).isEmpty = true) by simp),
      if_pos (show (c :: rest).length > 0 from Nat.succ_pos _)]
    rfl

theorem plain_beq_false {c d : Char} (h1 : plainChar c = true) (h2 : plainChar d = false) :
    (c == d) = false := by
  cases hb : c == d with
  | false => rfl
  | true => rw [eq_of_beq hb, h2] at h1; exact Bool.noConfusion h1

theorem plain_beq_false' {c d : Char} (h1 : plainChar c = true) (h2 : plainChar d = false) :
    (d == c) = false := by
  cases hb : d == c with
  | false => rfl
  | true => rw [← eq_of_beq hb, h2] at h1; exact Bool.noConfusion h1

theorem scanStrip_id (att : List Char → Option (List Char × List Char))
    (hatt : ∀ cs, (∀ c ∈ cs, plainChar c = true) → att cs = none) :
    ∀ (fuel : Nat) (cs : List Char), (∀ c ∈ cs, plainChar c = true) →
      scanStrip att fuel cs = cs := by
  intro fuel
  induction fuel with
  | zero => intro cs _; rfl
  | succ f ih =>
    intro cs h
    cases cs with
    | nil => rfl
    | cons c rest =>
      show scanStrip att (f + 1) (c :: rest) = c :: rest
      unfold scanStrip
      rw [hatt _ h, ih rest (fun x hx => h x (List.mem_cons_of_mem c hx))]

theorem gmStrip_id (att : List Char → Option (List Char × Bool × List Char))
    (hatt : ∀ cs, (∀ c ∈ cs, plainChar c = true) → att cs = none) :
    ∀ (fuel : Nat) (b : Bool) (cs : List Char), (∀ c ∈ cs, plainChar c = true) →
      gmStrip att fuel b cs = cs := by
  intro fuel
  induction fuel with
  | zero => intro b cs _; rfl
  | succ f ih =>
    intro b cs h
    cases cs with
    | nil => rfl
    | cons c rest =>
      show gmStrip att (f + 1) b (c :: rest) = c :: rest
      unfold gmStrip
      have hn : (if b then att (c :: rest) else none) = none := by
        cases b
        · rfl
        · exact hatt _ h
      rw [hn, ih _ rest (fun x hx => h x (List.mem_cons_of_mem c hx))]

theorem headerAtt_none (cs : List Char) (h : ∀ c ∈ cs, plainChar c = true) :
    headerAtt cs = none := by
  cases cs with
  | nil => rfl
  | cons c rest =>
    unfold headerAtt
    rw [List.takeWhile_cons,
      plain_beq_false (h c (List.mem_cons_self c rest)) (by decide : plainChar '#' = false)]
    rfl

theorem bqAtt_none (cs : List Char) (h : ∀ c ∈ cs, plainChar c = true) :
    bqAtt cs = none := by
  unfold bqAtt
  split
  · exact absurd (h '>' (List.mem_cons_self _ _)) (by decide)
  · rfl

theorem listAtt_none (cs : List Char) (h : ∀ c ∈ cs, plainChar c = true) :
    listAtt cs = none := by
  unfold listAtt
  split
  · rename_i c rest
    have hc := h c (List.mem_cons_self _ _)
    rw [plain_beq_false hc (by decide : plainChar '-' = false),
      plain_beq_false hc (by decide : plainChar '*' = false),
      plain_beq_false hc (by decide : plainChar '+' = false)]
    rfl
  · rfl

theorem numAtt_none (cs : List Char) (h : ∀ c ∈ cs, plainChar c = true) :
    numAtt cs = none := by
  unfold numAtt
  split
  · rename_i rest heq
    have hmem : '.' ∈ cs := (List.dropWhile_suffix Char.isDigit).subset
      (by rw [heq]; exact List.mem_cons_self _ _)
    exact absurd (h '.' hmem) (by decide)
  · simp only [ite_self]

theorem pairAtt_none (d : Char) (ds : List Char) (hd : plainChar d = false)
    (cs : List Char) (h : ∀ c ∈ cs, plainChar c = true) : pairAtt (d :: ds) cs = none := by
  unfold pairAtt
  have hpre : (d :: ds).isPrefixOf cs = false := by
    cases cs with
    | nil => rfl
    | cons c rest =>
      show (d == c && List.isPrefixOf ds rest) = false
      rw [plain_beq_false' (h c (List.mem_cons_self _ _)) hd]
      rfl
  rw [hpre]
  rfl

theorem codeAtt_none (cs : List Char) (h : ∀ c ∈ cs, plainChar c = true) :
    codeAtt cs = none := by
  cases cs with
  | nil => rfl
  | cons c rest =>
    unfold codeAtt
    split
    · rename_i cs2 c2 rest2 heq
      injection heq with hc hr
      subst hc
      rw [plain_beq_false (h c (List.mem_cons_self _ _)) (by decide : plainChar btick = false)]
      rfl
    · rfl

theorem linkAtt_none (cs : List Char) (h : ∀ c ∈ cs, plainChar c = true) :
    linkAtt cs = none := by
  unfold linkAtt
  split
  · exact absurd (h '[' (List.mem_cons_self _ _)) (by decide)
  · rfl

theorem imageAtt_none (cs : List Char) (h : ∀ c ∈ cs, plainChar c = true) :
    imageAtt cs = none := by
  unfold imageAtt
  split
  · exact absurd (h '!' (List.mem_cons_self _ _)) (by decide)
  · rfl

theorem stripFrontBlock_id (cs : List Char) (h : ∀ c ∈ cs, plainChar c = true) :
    stripFrontBlock cs = cs := by
  unfold stripFrontBlock
  split
  · exact absurd (h '-' (List.mem_cons_self _ _)) (by decide)
  · rfl

theorem stripTagsAux_id :
    ∀ (fuel : Nat) (cs : List Char), (∀ c ∈ cs, plainChar c = true) →
      stripTagsAux fuel cs = cs := by
  intro fuel
  induction fuel with
  | zero => intro cs _; rfl
  | succ f ih =>
    intro cs h
    cases cs with
    | nil => rfl
    | cons c rest =>
      show stripTagsAux (f + 1) (c :: rest) = c :: rest
      unfold stripTagsAux
      have hrec : stripTagsAux f rest = rest := ih rest (fun x hx => h x (List.mem_cons_of_mem c hx))
      cases hs : isJsSpace c with
      | false => simp only [hs, Bool.false_eq_true, if_false, hrec]
      | true =>
        simp only [hs, if_true]
        split
        · exact absurd (h '#' (List.mem_cons_of_mem c (List.mem_cons_self _ _))) (by decide)
        · rw [hrec]

theorem stripTags_id (cs : List Char) (h : ∀ c ∈ cs, plainChar c = true) :
    stripTags cs = cs := by
  unfold stripTags
  split
  · exact absurd (h '#' (List.mem_cons_self _ _)) (by decide)
  · exact stripTagsAux_id _ _ h

theorem jsTrim_eq (cs : List Char) :
    jsTrim cs = List.rdropWhile isJsSpace (cs.dropWhile isJsSpace) := rfl

theorem dropWhile_rdrop_eq (p : Char → Bool) (a : List Char)
    (h : List.dropWhile p a = a) :
    List.dropWhile p (List.rdropWhile p a) = List.rdropWhile p a := by
  cases hX : List.rdropWhile p a with
  | nil => rfl
  | cons x xs =>
    obtain ⟨t, ht⟩ := List.rdropWhile_prefix p a
    rw [hX] at ht
    have hpx : p x = false := by
      cases hp : p x with
      | false => rfl
      | true =>
        exfalso
        rw [← ht, List.cons_append, List.dropWhile_cons_of_pos hp] at h
        have hle := (List.dropWhile_suffix p (l := xs ++ t)).length_le
        rw [h] at hle
        simp at hle
    rw [List.dropWhile_cons_of_neg (by simp [hpx])]

theorem jsTrim_idem (cs : List Char) : jsTrim (jsTrim cs) = jsTrim cs := by
  rw [jsTrim_eq cs, jsTrim_eq,
    dropWhile_rdrop_eq isJsSpace _ (List.dropWhile_idempotent _ _),
    List.rdropWhile_idempotent]

theorem mem_of_mem_jsTrim {c : Char} {cs : List Char} (h : c ∈ jsTrim cs) : c ∈ cs := by
  rw [jsTrim_eq] at h
  exact (List.dropWhile_suffix isJsSpace).subset ((List.rdropWhile_prefix _ _).subset h)

/-- On plain text every replacement pass is the identity, so `stripMarkdown`
is just `trim`. -/
theorem stripMarkdown_plain (s : String) (h : ∀ c ∈ s.data, plainChar c = true) :
    stripMarkdown s = String.mk (jsTrim s.data) := by
  unfold stripMarkdown
  dsimp only
  rw [stripFrontBlock_id _ h,
    gmStrip_id headerAtt headerAtt_none _ _ _ h,
    scanStrip_id _ (pairAtt_none '*' ['*'] (by decide)) _ _ h,
    scanStrip_id _ (pairAtt_none '*' [] (by decide)) _ _ h,
    scanStrip_id _ (pairAtt_none '_' ['_'] (by decide)) _ _ h,
    scanStrip_id _ (pairAtt_none '_' [] (by decide)) _ _ h,
    scanStrip_id _ (pairAtt_none '~' ['~'] (by decide)) _ _ h,
    scanStrip_id codeAtt codeAtt_none _ _ h,
    scanStrip_id linkAtt linkAtt_none _ _ h,
    scanStrip_id imageAtt imageAtt_none _ _ h,
    gmStrip_id bqAtt bqAtt_none _ _ _ h,
    gmStrip_id listAtt listAtt_none _ _ _ h,
    gmStrip_id numAtt numAtt_none _ _ _ h,
    stripTags_id _ h]

/-- C5 counterexample: `stripMarkdown` is not idempotent: one pass over
`"## # b"` leaves `"# b"`, whose leading `# ` is again a header for the
second pass. -/
theorem stripMarkdown_not_idempotent :
    ¬ stripMarkdown (stripMarkdown "## # b") = stripMarkdown "## # b" := by decide

/-- C5 amended: `stripMarkdown` is idempotent on plain text, i.e. on every
string whose characters are letters, digits, spaces or newlines (no markdown
marker characters); on such strings a single pass only trims, so a second
pass changes nothing. -/
theorem stripMarkdown_idem_plain (s : String) (h : ∀ c ∈ s.data, plainChar c = true) :
    stripMarkdown (stripMarkdown s) = stripMarkdown s := by
  have h1 : stripMarkdown s = String.mk (jsTrim s.data) := stripMarkdown_plain s h
  have h2 : ∀ c ∈ (stripMarkdown s).data, plainChar c = true := by
    rw [h1]
    intro c hc
    exact h c (mem_of_mem_jsTrim hc)
  rw [stripMarkdown_plain _ h2, h1, jsTrim_idem]

/-- C5 witness: idempotence at the concrete plain string `"ab c"`. -/
theorem stripMarkdown_idem_plain_witness :
    (∀ c ∈ ("ab c" : String).data, plainChar c = true)
    ∧ stripMarkdown (stripMarkdown "ab c") = stripMarkdown "ab c" :=
  ⟨by decide, stripMarkdown_idem_plain "ab c" (by decide)⟩

theorem getOrderIndex_cases (o : List String) (p : String) :
    getOrderIndex o p = -1 ∨ 0 ≤ getOrderIndex o p := by
  unfold getOrderIndex
  cases h : o.findIdx? (fun q => q == p) with
  | none => exact Or.inl rfl
  | some i => exact Or.inr (Int.natCast_nonneg i)

theorem notGt_eq_neg1 {o : List String} {p : String} (h : ¬ getOrderIndex o p > -1) :
    getOrderIndex o p = -1 := by
  rcases getOrderIndex_cases o p with h1 | h1
  · exact h1
  · omega

theorem fileLE_imp (o : List String) (a b : NoteFile) (h : fileLE o a b) :
    (getOrderIndex o a.path > -1 ∧ getOrderIndex o b.path > -1 ∧
      getOrderIndex o a.path ≤ getOrderIndex o b.path)
    ∨ (getOrderIndex o a.path > -1 ∧ getOrderIndex o b.path = -1)
    ∨ (getOrderIndex o a.path = -1 ∧ getOrderIndex o b.path = -1 ∧ b.mtime ≤ a.mtime) := by
  unfold fileLE cmpFiles at h
  dsimp only at h
  split at h
  · rename_i hc
    exact Or.inl ⟨hc.1, hc.2, by omega⟩
  · rename_i hc1
    split at h
    · rename_i ha
      exact Or.inr (Or.inl ⟨ha, notGt_eq_neg1 (fun hb => hc1 ⟨ha, hb⟩)⟩)
    · rename_i ha
      split at h
      · omega
      · rename_i hb
        exact Or.inr (Or.inr ⟨notGt_eq_neg1 ha, notGt_eq_neg1 hb, by omega⟩)

theorem fileLE_total (o : List String) : ∀ a b : NoteFile, fileLE o a b ∨ fileLE o b a := by
  intro a b
  unfold fileLE cmpFiles
  dsimp only
  by_cases ha : getOrderIndex o a.path > -1 <;>
    by_cases hb : getOrderIndex o b.path > -1 <;>
    simp [ha, hb] <;> omega

theorem fileLE_trans (o : List String) :
    ∀ a b c : NoteFile, fileLE o a b → fileLE o b c → fileLE o a c := by
  intro a b c h1 h2
  unfold fileLE cmpFiles at h1 h2 ⊢
  dsimp only at h1 h2 ⊢
  by_cases ha : getOrderIndex o a.path > -1 <;>
    by_cases hb : getOrderIndex o b.path > -1 <;>
    by_cases hc : getOrderIndex o c.path > -1 <;>
    simp [ha, hb, hc] at h1 h2 ⊢ <;> omega

/-- C1: in each group's `sortByOrder`-sorted output, any earlier note relates
to any later note by: both positioned in the persisted order with ascending
positions, or the earlier positioned and the later unpositioned, or both
unpositioned with last-modified time descending; and on the concrete instance
with pinned `{A, B}`, order `[B, A]`, and unpinned `C` most recently
modified, rendering yields the pinned group `[B, A]` followed by the
unpinned group `[C]`. -/
theorem pipeline_group_order_spec :
    (∀ (noteOrder : List String) (files : List NoteFile),
      (sortByOrder noteOrder files).Pairwise (fun a b =>
        (getOrderIndex noteOrder a.path > -1 ∧ getOrderIndex noteOrder b.path > -1 ∧
          getOrderIndex noteOrder a.path ≤ getOrderIndex noteOrder b.path)
        ∨ (getOrderIndex noteOrder a.path > -1 ∧ getOrderIndex noteOrder b.path = -1)
        ∨ (getOrderIndex noteOrder a.path = -1 ∧ getOrderIndex noteOrder b.path = -1 ∧
            b.mtime ≤ a.mtime)))
    ∧ renderGroups ["A", "B"] ["B", "A"] [⟨"C", 100⟩, ⟨"B", 60⟩, ⟨"A", 50⟩]
        = ([⟨"B", 60⟩, ⟨"A", 50⟩], [⟨"C", 100⟩])
    ∧ currentFiles ["A", "B"] ["B", "A"] [⟨"C", 100⟩, ⟨"B", 60⟩, ⟨"A", 50⟩]
        = [⟨"B", 60⟩, ⟨"A", 50⟩, ⟨"C", 100⟩] := by
  refine ⟨fun noteOrder files => ?_, by decide, by decide⟩
  haveI : IsTotal NoteFile (fileLE noteOrder) := ⟨fileLE_total noteOrder⟩
  haveI : IsTrans NoteFile (fileLE noteOrder) := ⟨fileLE_trans noteOrder⟩
  exact List.Pairwise.imp (fun hab => fileLE_imp _ _ _ hab)
    (List.sorted_insertionSort (fileLE noteOrder) files)

theorem debounce_aux :
    ∀ (ts : List Int) (t : Int) (fires : List Int),
      List.Chain (fun a b => a < b ∧ b - a < DEBOUNCE_REFRESH_MS) t ts →
      ts.foldl debounceStep (some (t + DEBOUNCE_REFRESH_MS), fires)
        = (some (ts.getLastD t + DEBOUNCE_REFRESH_MS), fires) := by
  intro ts
  induction ts with
  | nil => intro t fires _; rfl
  | cons u ts ih =>
    intro t fires h
    rcases List.chain_cons.mp h with ⟨⟨hlt, hgap⟩, hch⟩
    show List.foldl debounceStep (debounceStep (some (t + DEBOUNCE_REFRESH_MS), fires) u) ts
      = (some ((u :: ts).getLastD t + DEBOUNCE_REFRESH_MS), fires)
    have hstep : debounceStep (some (t + DEBOUNCE_REFRESH_MS), fires) u
        = (some (u + DEBOUNCE_REFRESH_MS), fires) := by
      unfold debounceStep
      dsimp only
      rw [if_neg (by omega : ¬ t + DEBOUNCE_REFRESH_MS ≤ u)]
    rw [hstep, ih u fires hch, List.getLastD_cons]

/-- C3: for a burst of one or more file-change events in which every event
arrives less than the quiet interval (`DEBOUNCE_REFRESH_MS`) after the
previous one, the debounced scheduler fires exactly one refresh, and it fires
exactly (hence no earlier than) one full interval after the last event of the
burst: each event cancels the pending timeout and schedules a fresh one. -/
theorem debounce_spec (t0 : Int) (ts : List Int)
    (h : List.Chain (fun a b => a < b ∧ b - a < DEBOUNCE_REFRESH_MS) t0 ts) :
    runDebounce (t0 :: ts) = [ts.getLastD t0 + DEBOUNCE_REFRESH_MS]
    ∧ (runDebounce (t0 :: ts)).length = 1
    ∧ ∀ f ∈ runDebounce (t0 :: ts), ts.getLastD t0 + DEBOUNCE_REFRESH_MS ≤ f := by
  have h0 : (t0 :: ts).foldl debounceStep (none, [])
      = (some (ts.getLastD t0 + DEBOUNCE_REFRESH_MS), []) := by
    show ts.foldl debounceStep (debounceStep (none, []) t0) = _
    have h1 : debounceStep ((none : Option Int), ([] : List Int)) t0
        = (some (t0 + DEBOUNCE_REFRESH_MS), []) := rfl
    rw [h1, debounce_aux ts t0 [] h]
  have hrun : runDebounce (t0 :: ts) = [ts.getLastD t0 + DEBOUNCE_REFRESH_MS] := by
    unfold runDebounce
    rw [h0]
    rfl
  refine ⟨hrun, by rw [hrun]; rfl, ?_⟩
  intro f hf
  rw [hrun] at hf
  rw [List.mem_singleton.mp hf]

/-- C3 witness: a burst of three events 0, 300, 900 (gaps 300 and 600, both
below the 1000 ms interval) produces exactly the one refresh at 1900. -/
theorem debounce_spec_witness :
    List.Chain (fun a b => a < b ∧ b - a < DEBOUNCE_REFRESH_MS) 0 [300, 900]
    ∧ runDebounce [0, 300, 900] = [1900] := by
  have hch : List.Chain (fun a b => a < b ∧ b - a < DEBOUNCE_REFRESH_MS) 0 [300, 900] :=
    List.Chain.cons (by constructor <;> decide)
      (List.Chain.cons (by constructor <;> decide) List.Chain.nil)
  refine ⟨hch, ?_⟩
  have := (debounce_spec 0 [300, 900] hch).1
  simpa using this

/-- C8: for a state whose pinned list holds the path at most once (the store
only ever inserts a path absent from the list), toggling a pin twice restores
the original pinned/unpinned value, each toggle returns the flipped state, and
the two calls issue exactly two persisted writes. -/
theorem togglePin_twice (d : DashboardData) (p : String)
    (h : d.pinnedNotes.count p ≤ 1) :
    isPinned (togglePin (togglePin d p).2.1 p).2.1 p = isPinned d p
    ∧ (togglePin d p).1 = !isPinned d p
    ∧ (togglePin (togglePin d p).2.1 p).1 = isPinned d p
    ∧ (togglePin d p).2.2 + (togglePin (togglePin d p).2.1 p).2.2 = 2 := by
  by_cases hp : p ∈ d.pinnedNotes
  · have hcount : d.pinnedNotes.count p = 1 := by
      have h1 : 0 < d.pinnedNotes.count p := List.count_pos_iff.mpr hp
      omega
    have herase : (d.pinnedNotes.erase p).count p = 0 := by
      rw [List.count_erase_self, hcount]
    have hmem2 : p ∉ d.pinnedNotes.erase p := List.count_eq_zero.mp herase
    simp [togglePin, isPinned, hp, hmem2]
  · have hfinal : p ∉ (d.pinnedNotes ++ [p]).erase p := by
      have hc0 : d.pinnedNotes.count p = 0 := List.count_eq_zero.mpr hp
      have : ((d.pinnedNotes ++ [p]).erase p).count p = 0 := by
        rw [List.count_erase_self]
        simp [List.count_append, hc0]
      exact List.count_eq_zero.mp this
    simp [togglePin, isPinned, hp, hfinal]

/-- C8 witness: double toggle at the concrete pinned state `["x"]`. -/
theorem togglePin_twice_witness :
    (["x"] : List String).count "x" ≤ 1
    ∧ isPinned (togglePin (togglePin ⟨["x"], [], []⟩ "x").2.1 "x").2.1 "x"
        = isPinned ⟨["x"], [], []⟩ "x" :=
  ⟨by decide, (togglePin_twice ⟨["x"], [], []⟩ "x" (by decide)).1⟩

theorem beq_symm_false {a b : String} (h : ¬(a == b) = true) : (b == a) = false := by
  cases hb : b == a with
  | false => rfl
  | true =>
    have e : b = a := eq_of_beq hb
    subst e
    exact absurd (beq_self_eq_true b) h

theorem lookup_objDelete_self (m : List (String × String)) (k : String) :
    lookupColor (objDelete m k) k = none := by
  induction m with
  | nil => rfl
  | cons kv rest ih =>
    cases hk : kv.1 == k with
    | true => simpa [objDelete, hk] using ih
    | false =>
      simp only [objDelete, hk, Bool.false_eq_true, if_false]
      unfold lookupColor
      rw [List.find?_cons_of_neg _ (by simp [hk])]
      exact ih

theorem lookup_objDelete_ne (m : List (String × String)) (k k' : String)
    (h : ¬(k' == k) = true) :
    lookupColor (objDelete m k) k' = lookupColor m k' := by
  induction m with
  | nil => rfl
  | cons kv rest ih =>
    cases hk : kv.1 == k with
    | true =>
      have hne : (kv.1 == k') = false := by
        have h1 : kv.1 = k := eq_of_beq hk
        cases hb : kv.1 == k' with
        | false => rfl
        | true =>
          have h2 : k' = k := by rw [← eq_of_beq hb, h1]
          exact absurd (h2 ▸ beq_self_eq_true k') h
      simp only [objDelete, hk, if_pos]
      rw [ih]
      unfold lookupColor
      rw [List.find?_cons_of_neg _ (by simp [hne])]
    | false =>
      simp only [objDelete, hk, Bool.false_eq_true, if_false]
      unfold lookupColor
      cases hb : kv.1 == k' with
      | true =>
        rw [List.find?_cons_of_pos _ (by simp [hb]), List.find?_cons_of_pos _ (by simp [hb])]
      | false =>
        rw [List.find?_cons_of_neg _ (by simp [hb]), List.find?_cons_of_neg _ (by simp [hb])]
        exact ih

theorem lookup_objSet_self (m : List (String × String)) (k v : String) :
    lookupColor (objSet m k v) k = some v := by
  induction m with
  | nil =>
    unfold objSet lookupColor
    rw [List.find?_cons_of_pos _ (by simp)]
    rfl
  | cons kv rest ih =>
    unfold objSet
    cases hk : kv.1 == k with
    | true =>
      simp only [hk, if_pos]
      unfold lookupColor
      rw [List.find?_cons_of_pos _ (by simp)]
      rfl
    | false =>
      simp only [hk, Bool.false_eq_true, if_false]
      unfold lookupColor
      rw [List.find?_cons_of_neg _ (by simp [hk])]
      exact ih

theorem lookup_objSet_ne (m : List (String × String)) (k v k' : String)
    (h : ¬(k' == k) = true) :
    lookupColor (objSet m k v) k' = lookupColor m k' := by
  induction m with
  | nil =>
    unfold objSet lookupColor
    rw [List.find?_cons_of_neg _ (by simp [beq_symm_false h])]
  | cons kv rest ih =>
    unfold objSet
    cases hk : kv.1 == k with
    | true =>
      simp only [hk, if_pos]
      have h1 : kv.1 = k := eq_of_beq hk
      have hne : (kv.1 == k') = false := by
        cases hb : kv.1 == k' with
        | false => rfl
        | true =>
          have h2 : k' = k := by rw [← eq_of_beq hb, h1]
          exact absurd (h2 ▸ beq_self_eq_true k') h
      unfold lookupColor
      rw [List.find?_cons_of_neg _ (by simp [beq_symm_false h]),
        List.find?_cons_of_neg _ (by simp [hne])]
    | false =>
      simp only [hk, Bool.false_eq_true, if_false]
      unfold lookupColor
      cases hb : kv.1 == k' with
      | true =>
        rw [List.find?_cons_of_pos _ (by simp [hb]), List.find?_cons_of_pos _ (by simp [hb])]
      | false =>
        rw [List.find?_cons_of_neg _ (by simp [hb]), List.find?_cons_of_neg _ (by simp [hb])]
        exact ih

theorem map_subst_id (l : List String) (old new : String) (h : old ∉ l) :
    l.map (fun q => if q = old then new else q) = l := by
  induction l with
  | nil => rfl
  | cons a t ih =>
    have ha : ¬(a = old) := fun e => h (e ▸ List.mem_cons_self a t)
    simp only [List.map_cons, if_neg ha]
    rw [ih (fun hm => h (List.mem_cons_of_mem a hm))]

theorem renameAt_eq_map (l : List String) (old new : String) (h : l.count old ≤ 1) :
    renameAt l old new = l.map (fun q => if q = old then new else q) := by
  unfold renameAt
  induction l with
  | nil => rfl
  | cons a t ih =>
    rw [List.findIdx?_cons]
    by_cases ha : a = old
    · subst ha
      rw [if_pos (beq_self_eq_true a)]
      have hcnt : t.count a = 0 := by
        have := List.count_cons_self a t
        omega
      have hnm : a ∉ t := List.count_eq_zero.mp hcnt
      simp [map_subst_id t a new hnm]
    · have hbeq : (a == old) = false := by
        cases hb : a == old with
        | false => rfl
        | true => exact absurd (eq_of_beq hb) ha
      rw [hbeq]
      simp only [Bool.false_eq_true, if_false]
      have hcnt : t.count old ≤ 1 := by
        have := List.count_cons_of_ne (by exact fun e => ha e.symm : old ≠ a) t
        omega
      have iht := ih hcnt
      cases hft : t.findIdx? (fun q => q == old) with
      | none =>
        rw [List.findIdx?_succ, hft]
        rw [hft] at iht
        dsimp only at iht ⊢
        rw [List.map_cons, if_neg ha]
        exact congrArg (fun l => a :: l) iht
      | some i =>
        rw [List.findIdx?_succ, hft]
        rw [hft] at iht
        dsimp only at iht ⊢
        rw [List.map_cons, if_neg ha]
        exact congrArg (fun l => a :: l) iht

theorem not_mem_map_subst (l : List String) (old new : String) (h : old ≠ new) :
    old ∉ l.map (fun q => if q = old then new else q) := by
  intro hm
  obtain ⟨q, _, he⟩ := List.mem_map.mp hm
  by_cases hq : q = old
  · rw [if_pos hq] at he
    exact h he.symm
  · rw [if_neg hq] at he
    exact hq he

theorem findIdx?_eq_none_of_not_mem (l : List String) (p : String) (h : p ∉ l) :
    l.findIdx? (fun q => q == p) = none := by
  rw [List.findIdx?_eq_none_iff]
  intro x hx
  cases hb : x == p with
  | false => rfl
  | true => exact absurd (eq_of_beq hb ▸ hx) h

theorem deleteAt_eq_erase (l : List String) (p : String) : deleteAt l p = l.erase p := by
  induction l with
  | nil => rfl
  | cons a t ih =>
    unfold deleteAt at ih ⊢
    rw [List.findIdx?_cons, List.erase_cons]
    cases hbeq : a == p with
    | true => simp
    | false =>
      simp only [Bool.false_eq_true, if_false, List.findIdx?_succ]
      cases hft : t.findIdx? (fun q => q == p) with
      | none =>
        rw [hft] at ih
        simp only [Option.map_none'] at ih ⊢
        exact congrArg (fun l => a :: l) ih
      | some i =>
        rw [hft] at ih
        simp only [Option.map_some'] at ih ⊢
        rw [List.eraseIdx_cons_succ]
        exact congrArg (fun l => a :: l) ih

/-- C4: after a rename notification, each of the three structures holds the
new path exactly where it held the old path and holds no entry for the old
path: the pinned and order lists have the old path replaced in place
(whatever the color state is), a present color moves to the new key with its
value, and an uncolored file's color map is left unchanged (so it holds no
entry for the old path either); after a delete notification, none of the
three structures holds the path; deleting a path absent from all three is a
no-op (the state is unchanged, nothing is saved, no error is possible).  The
count and nonempty-token hypotheses state the store's maintained invariants:
a path occurs at most once per list, and stored color tokens are nonempty
strings. -/
theorem rename_delete_spec :
    (∀ (d : DashboardData) (oldPath newPath : String),
      oldPath ≠ newPath →
      d.pinnedNotes.count oldPath ≤ 1 →
      d.noteOrder.count oldPath ≤ 1 →
      ((handleFileRename d oldPath newPath).1.pinnedNotes
          = d.pinnedNotes.map (fun q => if q = oldPath then newPath else q)
        ∧ (handleFileRename d oldPath newPath).1.noteOrder
          = d.noteOrder.map (fun q => if q = oldPath then newPath else q)
        ∧ oldPath ∉ (handleFileRename d oldPath newPath).1.pinnedNotes
        ∧ oldPath ∉ (handleFileRename d oldPath newPath).1.noteOrder))
    ∧ (∀ (d : DashboardData) (oldPath newPath v : String),
      oldPath ≠ newPath →
      lookupColor d.noteColors oldPath = some v →
      v ≠ "" →
      (lookupColor (handleFileRename d oldPath newPath).1.noteColors newPath = some v
        ∧ lookupColor (handleFileRename d oldPath newPath).1.noteColors oldPath = none
        ∧ ∀ k, k ≠ oldPath → k ≠ newPath →
            lookupColor (handleFileRename d oldPath newPath).1.noteColors k
              = lookupColor d.noteColors k))
    ∧ (∀ (d : DashboardData) (oldPath newPath : String),
      lookupColor d.noteColors oldPath = none →
      ((handleFileRename d oldPath newPath).1.noteColors = d.noteColors
        ∧ lookupColor (handleFileRename d oldPath newPath).1.noteColors oldPath = none))
    ∧ (∀ (d : DashboardData) (p : String),
      d.pinnedNotes.count p ≤ 1 →
      d.noteOrder.count p ≤ 1 →
      lookupColor d.noteColors p ≠ some "" →
      (p ∉ (handleFileDelete d p).1.pinnedNotes
        ∧ p ∉ (handleFileDelete d p).1.noteOrder
        ∧ lookupColor (handleFileDelete d p).1.noteColors p = none))
    ∧ (∀ (d : DashboardData) (p : String),
      p ∉ d.pinnedNotes → p ∉ d.noteOrder → lookupColor d.noteColors p = none →
      handleFileDelete d p = (d, 0)) := by
  refine ⟨?_, ?_, ?_, ?_, ?_⟩
  · intro d oldPath newPath hne hcp hco
    refine ⟨?_, ?_, ?_, ?_⟩
    · exact renameAt_eq_map d.pinnedNotes oldPath newPath hcp
    · exact renameAt_eq_map d.noteOrder oldPath newPath hco
    · rw [show (handleFileRename d oldPath newPath).1.pinnedNotes
          = renameAt d.pinnedNotes oldPath newPath from rfl,
        renameAt_eq_map d.pinnedNotes oldPath newPath hcp]
      exact not_mem_map_subst _ _ _ hne
    · rw [show (handleFileRename d oldPath newPath).1.noteOrder
          = renameAt d.noteOrder oldPath newPath from rfl,
        renameAt_eq_map d.noteOrder oldPath newPath hco]
      exact not_mem_map_subst _ _ _ hne
  · intro d oldPath newPath v hne hlv hv
    have htr : colorTruthy d.noteColors oldPath = true := by
      unfold colorTruthy
      rw [hlv]
      cases hb : v == "" with
      | true => exact absurd (eq_of_beq hb) hv
      | false => simp [hb]
    have hcolors : renameColors d.noteColors oldPath newPath
        = objDelete (objSet d.noteColors newPath v) oldPath := by
      unfold renameColors
      rw [if_pos htr, hlv]
    refine ⟨?_, ?_, ?_⟩
    · rw [show (handleFileRename d oldPath newPath).1.noteColors
          = renameColors d.noteColors oldPath newPath from rfl, hcolors,
        lookup_objDelete_ne _ _ _ (by
          intro hb
          exact hne (eq_of_beq hb).symm),
        lookup_objSet_self]
    · rw [show (handleFileRename d oldPath newPath).1.noteColors
          = renameColors d.noteColors oldPath newPath from rfl, hcolors,
        lookup_objDelete_self]
    · intro k hko hkn
      have hbk : ¬(k == oldPath) = true := by
        cases hb : k == oldPath with
        | true => exact absurd (eq_of_beq hb) hko
        | false => exact fun e => Bool.noConfusion e
      have hbn : ¬(k == newPath) = true := by
        cases hb : k == newPath with
        | true => exact absurd (eq_of_beq hb) hkn
        | false => exact fun e => Bool.noConfusion e
      rw [show (handleFileRename d oldPath newPath).1.noteColors
          = renameColors d.noteColors oldPath newPath from rfl, hcolors,
        lookup_objDelete_ne _ _ _ hbk, lookup_objSet_ne _ _ _ _ hbn]
  · intro d oldPath newPath hlv
    have hcolors : renameColors d.noteColors oldPath newPath = d.noteColors := by
      unfold renameColors
      rw [if_neg (by unfold colorTruthy; rw [hlv]; exact fun e => Bool.noConfusion e)]
    refine ⟨?_, ?_⟩
    · rw [show (handleFileRename d oldPath newPath).1.noteColors
          = renameColors d.noteColors oldPath newPath from rfl, hcolors]
    · rw [show (handleFileRename d oldPath newPath).1.noteColors
          = renameColors d.noteColors oldPath newPath from rfl, hcolors]
      exact hlv
  · intro d p hcp hco hlv
    have hpin : (handleFileDelete d p).1.pinnedNotes = d.pinnedNotes.erase p := by
      rw [show (handleFileDelete d p).1.pinnedNotes = deleteAt d.pinnedNotes p from rfl,
        deleteAt_eq_erase]
    have hord : (handleFileDelete d p).1.noteOrder = d.noteOrder.erase p := by
      rw [show (handleFileDelete d p).1.noteOrder = deleteAt d.noteOrder p from rfl,
        deleteAt_eq_erase]
    refine ⟨?_, ?_, ?_⟩
    · rw [hpin]
      have : (d.pinnedNotes.erase p).count p = 0 := by
        rw [List.count_erase_self]
        omega
      exact List.count_eq_zero.mp this
    · rw [hord]
      have : (d.noteOrder.erase p).count p = 0 := by
        rw [List.count_erase_self]
        omega
      exact List.count_eq_zero.mp this
    · rw [show (handleFileDelete d p).1.noteColors = deleteColors d.noteColors p from rfl]
      unfold deleteColors
      cases hl : lookupColor d.noteColors p with
      | none =>
        rw [if_neg (by unfold colorTruthy; rw [hl]; exact fun e => Bool.noConfusion e)]
        exact hl
      | some v =>
        have hv : ¬(v == "") = true := by
          cases hb : v == "" with
          | true => exact absurd (by rw [hl, eq_of_beq hb]) hlv
          | false => exact fun e => Bool.noConfusion e
        rw [if_pos (by unfold colorTruthy; rw [hl]; simp [hv])]
        exact lookup_objDelete_self _ _
  · intro d p hp ho hc
    have htr : colorTruthy d.noteColors p = false := by
      unfold colorTruthy
      rw [hc]
    have hfp : d.pinnedNotes.findIdx? (fun q => q == p) = none :=
      findIdx?_eq_none_of_not_mem _ _ hp
    have hfo : d.noteOrder.findIdx? (fun q => q == p) = none :=
      findIdx?_eq_none_of_not_mem _ _ ho
    unfold handleFileDelete deleteAt deleteColors
    rw [htr, hfp, hfo]
    rfl

/-- C4 witness: the five conjuncts applied at concrete states: a rename of a
pinned, ordered but uncolored file; a rename of a colored file; the
uncolored color-map case; a delete of a present path; and a delete of an
absent path. -/
theorem rename_delete_spec_witness :
    ((handleFileRename ⟨["old.md"], ["old.md"], []⟩ "old.md" "new.md").1.pinnedNotes
        = ["new.md"]
      ∧ (handleFileRename ⟨["old.md"], ["old.md"], []⟩ "old.md" "new.md").1.noteOrder
        = ["new.md"])
    ∧ lookupColor (handleFileRename ⟨[], [], [("old.md", "red")]⟩
        "old.md" "new.md").1.noteColors "new.md" = some "red"
    ∧ (handleFileRename ⟨["old.md"], ["old.md"], []⟩ "old.md" "new.md").1.noteColors = []
    ∧ "a.md" ∉ (handleFileDelete ⟨["a.md"], [], [("a.md", "blue")]⟩ "a.md").1.pinnedNotes
    ∧ handleFileDelete ⟨["b.md"], [], []⟩ "zzz.md" = (⟨["b.md"], [], []⟩, 0) := by
  have h1 := (rename_delete_spec.1 ⟨["old.md"], ["old.md"], []⟩
    "old.md" "new.md" (by decide) (by decide) (by decide))
  have h2 := (rename_delete_spec.2.1 ⟨[], [], [("old.md", "red")]⟩ "old.md" "new.md" "red"
    (by decide) (by decide) (by decide))
  have h3 := (rename_delete_spec.2.2.1 ⟨["old.md"], ["old.md"], []⟩ "old.md" "new.md"
    (by decide))
  have h4 := (rename_delete_spec.2.2.2.1 ⟨["a.md"], [], [("a.md", "blue")]⟩ "a.md"
    (by decide) (by decide) (by decide))
  have h5 := (rename_delete_spec.2.2.2.2 ⟨["b.md"], [], []⟩ "zzz.md"
    (by decide) (by decide) (by decide))
  exact ⟨⟨by rw [h1.1]; rfl, by rw [h1.2.1]; rfl⟩, h2.1, by rw [h3.1], h4.1, h5⟩

theorem miniLoop_some_not_mem (vault : List String) (folderPath dateStr : String) :
    ∀ (fuel counter : Nat) (fileName filePath : String),
      miniLoop vault folderPath dateStr fuel counter fileName = some filePath →
      filePath ∉ vault := by
  intro fuel
  induction fuel with
  | zero => intro counter fileName filePath h; exact absurd h (by simp [miniLoop])
  | succ f ih =>
    intro counter fileName filePath h
    unfold miniLoop at h
    split at h
    · exact ih _ _ _ h
    · rename_i hmem
      cases Option.some.inj h
      exact hmem

theorem quickLoop_some_not_mem (vault : List String) (folderPath : String) :
    ∀ (fuel counter : Nat) (fileName filePath : String),
      quickLoop vault folderPath fuel counter fileName = some filePath →
      filePath ∉ vault := by
  intro fuel
  induction fuel with
  | zero => intro counter fileName filePath h; exact absurd h (by simp [quickLoop])
  | succ f ih =>
    intro counter fileName filePath h
    unfold quickLoop at h
    split at h
    · exact ih _ _ _ h
    · rename_i hmem
      cases Option.some.inj h
      exact hmem

theorem createQuickNote_fresh (title content dateStr timeStr folderPath : String)
    (vault : List String) (fp fc : String)
    (h : createQuickNote title content dateStr timeStr folderPath vault = some (fp, fc)) :
    fp ∉ vault := by
  unfold createQuickNote at h
  split at h
  · rename_i filePath hq
    have hfp : fp = filePath := (congrArg Prod.fst (Option.some.inj h)).symm
    rw [hfp]
    exact quickLoop_some_not_mem vault folderPath _ _ _ _ hq
  · exact absurd h (by simp)

theorem digitChar_inj_lt : ∀ a < 10, ∀ b < 10, Nat.digitChar a = Nat.digitChar b → a = b := by
  decide

theorem map_digitChar_inj : ∀ (l1 l2 : List Nat), (∀ x ∈ l1, x < 10) → (∀ x ∈ l2, x < 10) →
    l1.map Nat.digitChar = l2.map Nat.digitChar → l1 = l2 := by
  intro l1
  induction l1 with
  | nil =>
    intro l2 _ _ h
    cases l2 with
    | nil => rfl
    | cons b t2 => simp at h
  | cons a t ih =>
    intro l2 h1 h2 h
    cases l2 with
    | nil => simp at h
    | cons b t2 =>
      simp only [List.map_cons, List.cons.injEq] at h
      have hab : a = b := digitChar_inj_lt a (h1 a (List.mem_cons_self _ _))
        b (h2 b (List.mem_cons_self _ _)) h.1
      rw [hab, ih t2 (fun x hx => h1 x (List.mem_cons_of_mem _ hx))
        (fun x hx => h2 x (List.mem_cons_of_mem _ hx)) h.2]

theorem decRepr_inj_pos {m n : Nat} (hm : m ≠ 0) (hn : n ≠ 0) (h : decRepr m = decRepr n) :
    m = n := by
  unfold decRepr at h
  rw [if_neg hm, if_neg hn] at h
  have hd : ((Nat.digits 10 m).reverse).map Nat.digitChar
      = ((Nat.digits 10 n).reverse).map Nat.digitChar := congrArg String.data h
  have hrev : (Nat.digits 10 m).reverse = (Nat.digits 10 n).reverse :=
    map_digitChar_inj _ _
      (fun x hx => Nat.digits_lt_base (by norm_num) (List.mem_reverse.mp hx))
      (fun x hx => Nat.digits_lt_base (by norm_num) (List.mem_reverse.mp hx)) hd
  have hdig : Nat.digits 10 m = Nat.digits 10 n := List.reverse_injective hrev
  calc m = Nat.ofDigits 10 (Nat.digits 10 m) := (Nat.ofDigits_digits 10 m).symm
    _ = Nat.ofDigits 10 (Nat.digits 10 n) := by rw [hdig]
    _ = n := Nat.ofDigits_digits 10 n

theorem miniCand_inj (dateStr : String) : Function.Injective (miniCand dateStr) := by
  intro j k h
  match j, k with
  | 0, 0 => rfl
  | 0, k + 1 =>
    exfalso
    have hd := congrArg String.data h
    simp only [miniCand, String.data_append, List.append_assoc] at hd
    have := List.append_cancel_left hd
    simp at this
  | j + 1, 0 =>
    exfalso
    have hd := congrArg String.data h
    simp only [miniCand, String.data_append, List.append_assoc] at hd
    have := List.append_cancel_left hd
    simp at this
  | j + 1, k + 1 =>
    have hd := congrArg String.data h
    simp only [miniCand, String.data_append, List.append_assoc] at hd
    have h1 := List.append_cancel_left hd
    have h2 := List.append_cancel_left h1
    have h3 := List.append_cancel_right h2
    have h4 : decRepr (j + 1) = decRepr (k + 1) := String.ext h3
    have := decRepr_inj_pos (Nat.succ_ne_zero j) (Nat.succ_ne_zero k) h4
    omega

theorem joinPath_inj (folderPath : String) {a b : String}
    (h : joinPath folderPath a = joinPath folderPath b) : a = b := by
  unfold joinPath at h
  split at h
  · exact h
  · have hd := congrArg String.data h
    simp only [String.data_append, List.append_assoc] at hd
    have h1 := List.append_cancel_left hd
    have h2 := List.append_cancel_left h1
    exact String.ext h2

theorem miniLoop_none_mem (vault : List String) (folderPath dateStr : String) :
    ∀ (fuel k : Nat),
      miniLoop vault folderPath dateStr fuel (k + 1) (miniCand dateStr k) = none →
      ∀ j, j < fuel → joinPath folderPath (miniCand dateStr (k + j)) ∈ vault := by
  intro fuel
  induction fuel with
  | zero => intro k _ j hj; exact absurd hj (Nat.not_lt_zero j)
  | succ f ih =>
    intro k h j hj
    unfold miniLoop at h
    split at h
    · rename_i hmem
      cases j with
      | zero => simpa using hmem
      | succ j2 =>
        have harith : k + (j2 + 1) = (k + 1) + j2 := by omega
        rw [harith]
        exact ih (k + 1) h j2 (by omega)
    · exact absurd h (by simp)

theorem createMiniNotePath_isSome (vault : List String) (folderPath dateStr : String) :
    (createMiniNotePath vault folderPath dateStr).isSome := by
  unfold createMiniNotePath
  cases hl : miniLoop vault folderPath dateStr (vault.length + 1) 1 (dateStr ++ ".md") with
  | some _ => rfl
  | none =>
    exfalso
    have hall := miniLoop_none_mem vault folderPath dateStr (vault.length + 1) 0 hl
    have hnd : ((List.range (vault.length + 1)).map
        (fun j => joinPath folderPath (miniCand dateStr j))).Nodup :=
      List.Nodup.map (fun x y hxy => miniCand_inj dateStr (joinPath_inj folderPath hxy))
        (List.nodup_range _)
    have hsub : ∀ x ∈ (List.range (vault.length + 1)).map
        (fun j => joinPath folderPath (miniCand dateStr j)), x ∈ vault := by
      intro x hx
      obtain ⟨j, hj, rfl⟩ := List.mem_map.mp hx
      simpa using hall j (List.mem_range.mp hj)
    have h1 := List.toFinset_card_of_nodup hnd
    have h2 : ((List.range (vault.length + 1)).map
        (fun j => joinPath folderPath (miniCand dateStr j))).toFinset ⊆ vault.toFinset :=
      fun x hx => List.mem_toFinset.mpr (hsub x (List.mem_toFinset.mp hx))
    have h3 := Finset.card_le_card h2
    have h4 := vault.toFinset_card_le
    have h5 : ((List.range (vault.length + 1)).map
        (fun j => joinPath folderPath (miniCand dateStr j))).length = vault.length + 1 := by
      simp
    omega

/-- C10: the collision loops of `createMiniNote` and `createQuickNote` only
ever hand a path to `vault.create` that is absent from the current file
listing, so note creation never overwrites an existing file; and the
`createMiniNote` loop always terminates with such a path within
`|listing| + 1` probes, since its candidate names are pairwise distinct. -/
theorem create_no_overwrite :
    (∀ (vault : List String) (folderPath dateStr : String) (fuel counter : Nat)
        (fileName filePath : String),
      miniLoop vault folderPath dateStr fuel counter fileName = some filePath →
      filePath ∉ vault)
    ∧ (∀ (title content dateStr timeStr folderPath : String) (vault : List String)
        (fp fc : String),
      createQuickNote title content dateStr timeStr folderPath vault = some (fp, fc) →
      fp ∉ vault)
    ∧ (∀ (vault : List String) (folderPath dateStr : String),
      (createMiniNotePath vault folderPath dateStr).isSome) := by
  exact ⟨fun vault folderPath dateStr fuel counter fileName filePath h =>
      miniLoop_some_not_mem vault folderPath dateStr fuel counter fileName filePath h,
    fun title content dateStr timeStr folderPath vault fp fc h =>
      createQuickNote_fresh title content dateStr timeStr folderPath vault fp fc h,
    fun vault folderPath dateStr => createMiniNotePath_isSome vault folderPath dateStr⟩

/-- C10 witness: the mini-note loop at a concrete one-element listing hands
back a fresh path. -/
theorem create_no_overwrite_witness :
    miniLoop ["2026-10-12.md"] "/" "2026-10-12" 2 1 "2026-10-12.md"
      = some "2026-10-12 (1).md"
    ∧ "2026-10-12 (1).md" ∉ ["2026-10-12.md"] := by
  have hloop : miniLoop ["2026-10-12.md"] "/" "2026-10-12" 2 1 "2026-10-12.md"
      = some "2026-10-12 (1).md" := by
    have hdig : Nat.digits 10 1 = [1] := by
      rw [Nat.digits_def' (by norm_num : (1 : Nat) < 10) (by norm_num : 0 < 1)]
      norm_num
    have h1 : decRepr 1 = "1" := by
      unfold decRepr
      rw [if_neg (by omega), hdig]
      rfl
    unfold miniLoop
    rw [if_pos (by decide), h1]
    unfold miniLoop
    rw [if_neg (by decide)]
    rfl
  exact ⟨hloop,
    create_no_overwrite.1 ["2026-10-12.md"] "/" "2026-10-12" 2 1 "2026-10-12.md"
      "2026-10-12 (1).md" hloop⟩

/-- C9 counterexample: submitting the quick-capture form with an empty title
and the body `"hello world"` produces the file `hello world.md` containing the
derived heading `# hello world`, not a timestamp-named file with the body
stored as-is. -/
theorem quick_capture_counterexample :
    saveNote "" "hello world" "2026-10-12" "10:00" "/" []
      = some ("hello world.md", "# hello world\n\nhello world")
    ∧ ¬ saveNote "" "hello world" "2026-10-12" "10:00" "/" []
        = some ("2026-10-12 10:00.md", "hello world") := by
  refine ⟨by decide, by decide⟩

/-- C9 amended: when the quick-capture form is submitted with an empty
(trimmed) title and a nonempty (trimmed) body, `saveNote` derives a title
from the first five words of the body and passes it to `createQuickNote`,
which then uses the sanitized derived title as the filename and inserts a
leading `# title` heading before the body; a timestamp-based filename with
the body stored as-is arises only when `createQuickNote` itself receives an
empty title. -/
theorem quick_capture_amended :
    (∀ (content dateStr timeStr folderPath : String),
      createQuickNote "" content dateStr timeStr folderPath []
        = some (joinPath folderPath (dateStr ++ " " ++ timeStr ++ ".md"), content))
    ∧ (∀ (titleInput contentInput dateStr timeStr folderPath : String) (vault : List String),
      String.mk (jsTrim titleInput.data) = "" →
      String.mk (jsTrim contentInput.data) ≠ "" →
      saveNote titleInput contentInput dateStr timeStr folderPath vault
        = createQuickNote (deriveTitle (String.mk (jsTrim contentInput.data)))
            (String.mk (jsTrim contentInput.data)) dateStr timeStr folderPath vault)
    ∧ (∀ (title content dateStr timeStr folderPath : String),
      title ≠ "" →
      createQuickNote title content dateStr timeStr folderPath []
        = some (joinPath folderPath (sanitizeTitle title ++ ".md"),
            "# " ++ title ++ "\n\n" ++ (if content = "" then "" else content))) := by
  refine ⟨?_, ?_, ?_⟩
  · intro content dateStr timeStr folderPath
    unfold createQuickNote
    rw [if_pos rfl]
    unfold quickLoop
    rw [if_neg (List.not_mem_nil _)]
    rw [if_pos rfl]
    by_cases hc : content = ""
    · subst hc
      rfl
    · rw [if_neg hc]
      have he : ("" : String) ++ content = content := String.ext (by simp)
      rw [he]
  · intro titleInput contentInput dateStr timeStr folderPath vault h1 h2
    unfold saveNote
    dsimp only
    rw [h1]
    rw [if_neg (fun hand => h2 hand.2)]
    rw [if_pos rfl]
  · intro title content dateStr timeStr folderPath h
    unfold createQuickNote
    rw [if_neg h]
    unfold quickLoop
    rw [if_neg (List.not_mem_nil _)]
    rw [if_neg h]

/-- C9 witness: the amended behavior at concrete inputs: a nonempty title
`"T"` yields `T.md` with heading `# T`, and the empty-title path of
`createQuickNote` yields the timestamp name with the body as-is. -/
theorem quick_capture_amended_witness :
    (("T" : String) ≠ ""
      ∧ createQuickNote "T" "b" "2026-10-12" "10:00" "/" [] = some ("T.md", "# T\n\nb"))
    ∧ createQuickNote "" "b" "2026-10-12" "10:00" "/" []
        = some ("2026-10-12 10:00.md", "b") := by
  have h3 := quick_capture_amended.2.2 "T" "b" "2026-10-12" "10:00" "/" (by decide)
  have h1 := quick_capture_amended.1 "b" "2026-10-12" "10:00" "/"
  refine ⟨⟨by decide, ?_⟩, ?_⟩
  · rw [h3]
    decide
  · rw [h1]
    decide

end MiniNotes

-- scratch checks (to be removed)